import Mathlib

/-!
Shallow embedding of the batch-processing and filter-pipeline core of the
Python-Runner example scripts (`examples/batch_processing.py` and
`examples/custom_filter.py`).

The decoder (pydicom) and the numeric filter primitives (scipy/numpy) are
external collaborators: the decoder is modelled as a function from a file
path to `Except String Dataset` (a key-value field map or an error message),
and the filter primitives are parameters of the pipeline.  Pixel values are
modelled as rationals; IEEE divisions that can produce non-finite values are
modelled with an explicit zero-denominator check whose `none` result stands
for the NaN/Inf the float division would produce.
-/

namespace PyRunner

/-- A filesystem entry under the searched root: its path (components relative
to the root, in order) and whether it is a regular file (`isFile = true`) or
a directory. -/
structure Entry where
  path : List String
  isFile : Bool
deriving DecidableEq

/-- The base name of an entry, as Python's `Path.name`. -/
def Entry.name (e : Entry) : String := e.path.getLastD ""

/-- Python's `PurePath.suffix` of a base name: the part from the last dot on,
empty when there is no dot, the dot is the first character, or the dot is the
last character. -/
def suffixOf (name : String) : String :=
  let cs := name.toList
  let k := (cs.reverse.takeWhile (fun c => c ≠ '.')).length
  if k = cs.length ∨ k = 0 ∨ cs.length - 1 - k = 0 then ""
  else String.mk ('.' :: (cs.reverse.take k).reverse)

/-- `Path.suffix` of an entry's base name. -/
def Entry.suffix (e : Entry) : String := suffixOf e.name

/-- Lexicographic order on path component lists, mirroring how Python sorts
`Path` objects (component by component). -/
def lexLe : List String → List String → Bool
  | [], _ => true
  | _ :: _, [] => false
  | a :: as, b :: bs => if a = b then lexLe as bs else decide (a < b)

/-- The path order on entries used by the final `sorted(...)`. -/
def pathLe (a b : Entry) : Prop := lexLe a.path b.path = true

instance : DecidableRel pathLe := fun a b => by
  unfold pathLe; infer_instance

/-- A name matches the glob pattern `*<ext>` exactly when `ext` is a suffix
of the name (structural model of `fnmatch`'s translation of the pattern). -/
def strEndsWith (s pat : String) : Bool := pat.toList.isSuffixOf s.toList

/-- The recognized DICOM extensions of `find_dicom_files`. -/
def extensions : List String := [".dcm", ".dicom", ".DCM", ".DICOM"]

/-- `find_dicom_files`: for each extension, `rglob` collects every entry
(file or directory) whose name matches `*<ext>`; then every regular file
with no suffix whose name is not `.DS_Store` is added; the result is sorted.
The input list models the recursive enumeration of the directory tree. -/
def find_dicom_files (tree : List Entry) : List Entry :=
  let fromExt := (extensions.map (fun ext => tree.filter (fun e => strEndsWith e.name ext))).foldr (· ++ ·) []
  let noExt := tree.filter (fun e => e.isFile && e.suffix == "" && e.name != ".DS_Store")
  List.insertionSort pathLe (fromExt ++ noExt)

/-- The decoder's output: the key-value metadata map a `pydicom` dataset
exposes (`ds.get(key, default)` is a lookup with a default). -/
abbrev Dataset := List (String × String)

/-- A result dictionary built by the scripts (a Python dict with string
keys, in insertion order). -/
abbrev AttrRecord := List (String × String)

/-- `ds.get(key, default)`. -/
def dsGet (ds : Dataset) (key dflt : String) : String := (ds.lookup key).getD dflt

/-- `process_single_image`: imports pydicom (the `pydicom_available` flag
models the `try: import pydicom` guard), decodes the file, and on success
builds the info dict of the seven fixed keys, substituting the sentinel
string for any field the decoder does not expose.  Any decode error is
caught and returned as `(false, error dict)`; the function is total, so no
exception escapes it. -/
def process_single_image (pydicom_available : Bool)
    (dcmread : Entry → Except String Dataset) (dicom_path : Entry) :
    Bool × AttrRecord :=
  match pydicom_available with
  | false => (false, [("error", "pydicom not installed")])
  | true =>
    match dcmread dicom_path with
    | Except.ok ds =>
        (true,
         [("filename", dicom_path.name),
          ("patient_id", dsGet ds "PatientID" "N/A"),
          ("study_uid", dsGet ds "StudyInstanceUID" "N/A"),
          ("series_number", dsGet ds "SeriesNumber" "N/A"),
          ("instance_number", dsGet ds "InstanceNumber" "N/A"),
          ("modality", dsGet ds "Modality" "N/A"),
          ("study_description", dsGet ds "StudyDescription" "N/A")])
    | Except.error e => (false, [("error", e), ("filename", dicom_path.name)])

/-- One progress notification of `display_progress`: the 1-based index, the
total count and the current file's base name. -/
structure ProgressEvent where
  current : Nat
  total : Nat
  filename : String
deriving DecidableEq

/-- The batch loop of `main`: for each file, first the progress notification
for it (1-based index, total, name), then its outcome, appended in order. -/
def batch_loop (avail : Bool) (dcmread : Entry → Except String Dataset)
    (total : Nat) : Nat → List Entry → List ProgressEvent × List (Bool × AttrRecord)
  | _, [] => ([], [])
  | idx, f :: rest =>
      let ev : ProgressEvent := ⟨idx, total, f.name⟩
      let out := process_single_image avail dcmread f
      let r := batch_loop avail dcmread total (idx + 1) rest
      (ev :: r.1, out :: r.2)

/-- `main`'s processing of the discovered files: progress events and
outcomes, starting the enumeration at 1. -/
def run_batch (avail : Bool) (dcmread : Entry → Except String Dataset)
    (files : List Entry) : List ProgressEvent × List (Bool × AttrRecord) :=
  batch_loop avail dcmread files.length 1 files

/-- Appending a record to its study's list in the insertion-ordered dict,
creating the group at the end when the key is new
(`studies[study_uid] = []` then `append`). -/
def insertGroup (studies : List (String × List AttrRecord)) (uid : String)
    (r : AttrRecord) : List (String × List AttrRecord) :=
  match studies with
  | [] => [(uid, [r])]
  | g :: rest =>
      if g.1 = uid then (g.1, g.2 ++ [r]) :: rest
      else g :: insertGroup rest uid r

/-- One iteration of `group_by_study`'s loop: a result that has the
`study_uid` key is appended to its group; one without it is skipped. -/
def group_step (studies : List (String × List AttrRecord)) (result : AttrRecord) :
    List (String × List AttrRecord) :=
  match result.lookup "study_uid" with
  | some uid => insertGroup studies uid result
  | none => studies

/-- `group_by_study`: fold the results into an insertion-ordered dict from
study UID to the list of its records. -/
def group_by_study (results : List AttrRecord) : List (String × List AttrRecord) :=
  results.foldl group_step []

/-- The distinct values of a list in order of first appearance. -/
def uniqueInOrder : List String → List String
  | [] => []
  | x :: xs => x :: (uniqueInOrder xs).filter (fun s => decide (s ≠ x))

/-- The error list `display_summary` builds: for each failure outcome, the
filename and the error message (`result.get('error', 'Unknown error')`). -/
def batch_errors (results : List (Bool × AttrRecord)) : List (String × String) :=
  (results.filter (fun p => !p.1)).map
    (fun p => ((p.2.lookup "filename").getD "", (p.2.lookup "error").getD "Unknown error"))

/-- The rendered error section of `display_summary`: the first 10 errors are
detailed (`errors[:10]`), and when there are more than 10 a single summary
line carries the count of the remaining ones. -/
def error_report (results : List (Bool × AttrRecord)) :
    List (String × String) × Option Nat :=
  let errors := batch_errors results
  (errors.take 10, if 10 < errors.length then some (errors.length - 10) else none)

/-- IEEE float division, modelled over the rationals: `none` stands for the
non-finite (Inf or NaN) value a zero denominator would produce, which numpy
emits silently instead of raising. -/
def fdiv (a b : ℚ) : Option ℚ := if b = 0 then none else some (a / b)

/-- `np.min` over a nonempty array (0 for an empty one, unused). -/
def listMin (xs : List ℚ) : ℚ :=
  match xs with
  | [] => 0
  | x :: t => t.foldl min x

/-- `np.max` over a nonempty array (0 for an empty one, unused). -/
def listMax (xs : List ℚ) : ℚ :=
  match xs with
  | [] => 0
  | x :: t => t.foldl max x

/-- `np.mean`: the sum divided by the element count. -/
def listMean (xs : List ℚ) : ℚ := xs.sum / xs.length

/-- `np.var`, the mean squared deviation from the mean; `np.std` is its
square root. -/
def listVariance (xs : List ℚ) : ℚ :=
  listMean (xs.map (fun x => (x - listMean xs) ^ 2))

/-- The array sorted ascending, as numpy's sort of a 1-D float array. -/
def sortAsc (xs : List ℚ) : List ℚ := List.insertionSort (· ≤ ·) xs

/-- `np.median`: the middle element of the sorted array, or the mean of the
two middle elements for even length. -/
def listMedian (xs : List ℚ) : ℚ :=
  let s := sortAsc xs
  let n := s.length
  if n % 2 = 1 then s.getD (n / 2) 0
  else (s.getD (n / 2 - 1) 0 + s.getD (n / 2) 0) / 2

/-- Linear interpolation into a sorted array at a fractional position, the
default interpolation of `np.percentile`: with `i = floor pos`, the value is
`s[i] + (pos - i) * (s[i+1] - s[i])`, and the last element when `i` is the
last index. -/
def interp (s : List ℚ) (pos : ℚ) : ℚ :=
  if (Int.floor pos).toNat + 1 < s.length then
    s.getD (Int.floor pos).toNat 0 +
      (pos - ((Int.floor pos).toNat : ℚ)) *
        (s.getD ((Int.floor pos).toNat + 1) 0 - s.getD (Int.floor pos).toNat 0)
  else s.getD (s.length - 1) 0

/-- `np.percentile(xs, q)` with the default linear interpolation: the sorted
array interpolated at position `q * (n - 1) / 100`. -/
def percentile (xs : List ℚ) (q : ℚ) : ℚ :=
  interp (sortAsc xs) (q * ((xs.length : ℚ) - 1) / 100)

/-- `apply_contrast_enhancement`: the low and high percentile values of the
image, then each sample clipped to that range (`np.clip`) and linearly
rescaled by `(x - p_low) / (p_high - p_low)`.  The source divides with no
guard; a zero denominator makes numpy emit a non-finite array, modelled as
`none`. -/
def apply_contrast_enhancement (image : List ℚ)
    (percentile_low percentile_high : ℚ) : Option (List ℚ) :=
  let p_low := percentile image percentile_low
  let p_high := percentile image percentile_high
  if p_high - p_low = 0 then none
  else some (image.map (fun x => (min (max x p_low) p_high - p_low) / (p_high - p_low)))

/-- The statistics dict of `compute_image_statistics`; `np.std` is the
square root of the variance, taken through the numeric library's `sqrt`. -/
structure Stats where
  min : ℚ
  max : ℚ
  mean : ℚ
  std : ℚ
  median : ℚ
  shape : Nat
  dtype : String
deriving DecidableEq

/-- `compute_image_statistics`, parameterized by the external square root. -/
def compute_image_statistics (sqrtF : ℚ → ℚ) (image : List ℚ) : Stats :=
  ⟨listMin image, listMax image, listMean image, sqrtF (listVariance image),
   listMedian image, image.length, "float64"⟩

/-- The external numeric primitives of the filter library (scipy's
`gaussian_filter` and `sobel`) and numpy's elementwise square root, consumed
as black boxes. -/
structure FilterPrims where
  gaussian_filter : List ℚ → ℚ → List ℚ
  sobel : List ℚ → Nat → List ℚ
  sqrt : ℚ → ℚ

/-- `apply_gaussian_filter`: the library's Gaussian smoothing at the given
sigma. -/
def apply_gaussian_filter (P : FilterPrims) (image : List ℚ) (sigma : ℚ) :
    List ℚ :=
  P.gaussian_filter image sigma

/-- `apply_edge_detection`: smooth at sigma, take the Sobel gradients along
both axes, and combine them as the elementwise Euclidean magnitude. -/
def apply_edge_detection (P : FilterPrims) (image : List ℚ) (sigma : ℚ) :
    List ℚ :=
  let smoothed := P.gaussian_filter image sigma
  let gradient_x := P.sobel smoothed 0
  let gradient_y := P.sobel smoothed 1
  (gradient_x.zip gradient_y).map (fun p => P.sqrt (p.1 ^ 2 + p.2 ^ 2))

/-- The two change percentages `display_filter_comparison` prints:
`(filtered - original) / original * 100` for the mean and for the standard
deviation, each an unguarded division by the original statistic. -/
def display_filter_comparison (original_stats filtered_stats : Stats) :
    Option ℚ × Option ℚ :=
  ((fdiv (filtered_stats.mean - original_stats.mean) original_stats.mean).map (· * 100),
   (fdiv (filtered_stats.std - original_stats.std) original_stats.std).map (· * 100))

/-- One filter's structured result: its name, its output array (`none` when
the rescale produced a non-finite array), its statistics, the baseline
statistics it was compared against, and the printed percent changes. -/
structure FilterResult where
  name : String
  output : Option (List ℚ)
  filtered_stats : Option Stats
  original_stats : Stats
  changes : Option (Option ℚ × Option ℚ)
deriving DecidableEq

/-- `process_with_filters`: the baseline statistics are computed once, then
each filter is applied to `pixel_data` itself (the original baseline) and
compared against those baseline statistics, in the order Gaussian blur, edge
detection, contrast enhancement (the last only when enabled). -/
def process_with_filters (P : FilterPrims) (pixel_data : List ℚ)
    (gaussian_sigma edge_sigma : ℚ) (enable_contrast : Bool) :
    List FilterResult :=
  let original_stats := compute_image_statistics P.sqrt pixel_data
  let gaussian_filtered := apply_gaussian_filter P pixel_data gaussian_sigma
  let gaussian_stats := compute_image_statistics P.sqrt gaussian_filtered
  let r1 : FilterResult :=
    ⟨"Gaussian Blur", some gaussian_filtered, some gaussian_stats, original_stats,
     some (display_filter_comparison original_stats gaussian_stats)⟩
  let edge_filtered := apply_edge_detection P pixel_data edge_sigma
  let edge_stats := compute_image_statistics P.sqrt edge_filtered
  let r2 : FilterResult :=
    ⟨"Edge Detection", some edge_filtered, some edge_stats, original_stats,
     some (display_filter_comparison original_stats edge_stats)⟩
  if enable_contrast then
    let contrast_enhanced := apply_contrast_enhancement pixel_data 2 98
    let contrast_stats := contrast_enhanced.map (compute_image_statistics P.sqrt)
    let r3 : FilterResult :=
      ⟨"Contrast Enhancement", contrast_enhanced, contrast_stats, original_stats,
       contrast_stats.map (display_filter_comparison original_stats)⟩
    [r1, r2, r3]
  else [r1, r2]

/-- Modelled from the spec's words (written only for comparison against the
code's behaviour in claim C8): the number of distinct non-empty study
identifiers among the input records. -/
def distinctNonEmptyStudyIds (results : List AttrRecord) : Nat :=
  (uniqueInOrder ((results.filterMap (fun r => r.lookup "study_uid")).filter
    (fun s => decide (s ≠ "")))).length

/-! ## Helper lemmas about the batch loop -/

/-- The batch loop unzipped: the progress events enumerate the files from
`idx` and the outcomes are the per-file extractions, in order. -/
lemma batch_loop_eq (avail : Bool) (dcmread : Entry → Except String Dataset)
    (total : Nat) (files : List Entry) :
    ∀ idx : Nat,
      batch_loop avail dcmread total idx files =
        ((List.enumFrom idx files).map (fun p => ⟨p.1, total, p.2.name⟩),
         files.map (process_single_image avail dcmread)) := by
  induction files with
  | nil => intro idx; rfl
  | cons f rest ih =>
      intro idx
      simp [batch_loop, List.enumFrom_cons, ih (idx + 1)]

/-- The outcome list of a batch run is the per-file map. -/
lemma run_batch_outcomes (avail : Bool) (dcmread : Entry → Except String Dataset)
    (files : List Entry) :
    (run_batch avail dcmread files).2 = files.map (process_single_image avail dcmread) := by
  rw [run_batch, batch_loop_eq]

/-- The progress events of a batch run enumerate the files from 1. -/
lemma run_batch_events (avail : Bool) (dcmread : Entry → Except String Dataset)
    (files : List Entry) :
    (run_batch avail dcmread files).1 =
      (List.enumFrom 1 files).map (fun p => ⟨p.1, files.length, p.2.name⟩) := by
  rw [run_batch, batch_loop_eq]

/-! ## Helper lemmas about grouping -/

/-- `insertGroup` keeps the invariant that every record stored under a key
looks up to that key. -/
lemma insertGroup_sound (uid : String) (r : AttrRecord)
    (hr : r.lookup "study_uid" = some uid) :
    ∀ studies : List (String × List AttrRecord),
      (∀ g ∈ studies, ∀ x ∈ g.2, x.lookup "study_uid" = some g.1) →
      ∀ g ∈ insertGroup studies uid r, ∀ x ∈ g.2, x.lookup "study_uid" = some g.1 := by
  intro studies
  induction studies with
  | nil =>
      intro _ g hg x hx
      simp only [insertGroup, List.mem_singleton] at hg
      subst hg
      simp only [List.mem_singleton] at hx
      subst hx
      exact hr
  | cons g0 rest ih =>
      intro hinv g hg x hx
      simp only [insertGroup] at hg
      by_cases h0 : g0.1 = uid
      · rw [if_pos h0] at hg
        rcases List.mem_cons.mp hg with h | h
        · rw [h] at hx ⊢
          rcases List.mem_append.mp hx with h1 | h1
          · exact hinv g0 (List.mem_cons_self _ _) x h1
          · simp only [List.mem_singleton] at h1
            rw [h1, hr, h0]
        · exact hinv g (List.mem_cons_of_mem _ h) x hx
      · rw [if_neg h0] at hg
        rcases List.mem_cons.mp hg with h | h
        · rw [h] at hx ⊢
          exact hinv g0 (List.mem_cons_self _ _) x hx
        · exact ih (fun g hg => hinv g (List.mem_cons_of_mem _ hg)) g h x hx

/-- Folding `group_step` keeps the key invariant. -/
lemma group_fold_sound (results : List AttrRecord) :
    ∀ studies : List (String × List AttrRecord),
      (∀ g ∈ studies, ∀ x ∈ g.2, x.lookup "study_uid" = some g.1) →
      ∀ g ∈ results.foldl group_step studies, ∀ x ∈ g.2, x.lookup "study_uid" = some g.1 := by
  induction results with
  | nil => intro studies hinv; simpa using hinv
  | cons r rest ih =>
      intro studies hinv
      simp only [List.foldl_cons]
      apply ih
      unfold group_step
      cases h : r.lookup "study_uid" with
      | none => simpa using hinv
      | some uid => exact insertGroup_sound uid r h studies hinv

/-- Every record stored in a group of `group_by_study` looks up to that
group's key. -/
lemma group_by_study_sound (results : List AttrRecord) :
    ∀ g ∈ group_by_study results, ∀ x ∈ g.2, x.lookup "study_uid" = some g.1 :=
  group_fold_sound results [] (by simp)

/-- The keys of `insertGroup`: unchanged when the key is already present,
the key appended at the end when it is new. -/
lemma insertGroup_keys (uid : String) (r : AttrRecord) :
    ∀ studies : List (String × List AttrRecord),
      (insertGroup studies uid r).map Prod.fst =
        (if uid ∈ studies.map Prod.fst then studies.map Prod.fst
         else studies.map Prod.fst ++ [uid]) := by
  intro studies
  induction studies with
  | nil => simp [insertGroup]
  | cons g0 rest ih =>
      simp only [insertGroup, List.map_cons]
      by_cases h0 : g0.1 = uid
      · rw [if_pos h0, List.map_cons, if_pos (by simp [h0])]
      · rw [if_neg h0, List.map_cons, ih]
        by_cases hm : uid ∈ rest.map Prod.fst
        · rw [if_pos hm, if_pos (by simp [hm])]
        · have hnotin : ¬ uid ∈ g0.1 :: rest.map Prod.fst := by
            simp only [List.mem_cons]
            rintro (h | h)
            · exact h0 h.symm
            · exact hm h
          rw [if_neg hm, if_neg hnotin, List.cons_append]

/-- The keys accumulated by folding `group_step`: the keys already present,
followed by the first appearances of the new UIDs. -/
lemma group_keys_aux (results : List AttrRecord) :
    ∀ studies : List (String × List AttrRecord),
      (results.foldl group_step studies).map Prod.fst =
        studies.map Prod.fst ++
          (uniqueInOrder (results.filterMap (fun r => r.lookup "study_uid"))).filter
            (fun s => decide (s ∉ studies.map Prod.fst)) := by
  induction results with
  | nil =>
      intro studies
      simp [uniqueInOrder]
  | cons r rest ih =>
      intro studies
      simp only [List.foldl_cons, List.filterMap_cons]
      cases h : r.lookup "study_uid" with
      | none =>
          simp only [group_step, h]
          exact ih studies
      | some uid =>
          simp only [group_step, h]
          rw [ih (insertGroup studies uid r), insertGroup_keys]
          simp only [uniqueInOrder, List.filter_cons]
          by_cases hm : uid ∈ studies.map Prod.fst
          · have hd : decide (uid ∉ studies.map Prod.fst) = false := by simp [hm]
            rw [if_pos hm, hd]
            simp only [Bool.false_eq_true, if_false]
            rw [List.filter_filter]
            congr 1
            apply List.filter_congr
            intro x hx
            by_cases hxK : x ∈ studies.map Prod.fst
            · simp [hxK]
            · have hne : x ≠ uid := fun he => hxK (he ▸ hm)
              simp [hxK, hne]
          · have hd : decide (uid ∉ studies.map Prod.fst) = true := by simp [hm]
            rw [if_neg hm, hd]
            simp only [if_true]
            rw [List.append_assoc, List.singleton_append, List.filter_filter]
            congr 2
            apply List.filter_congr
            intro x hx
            by_cases hxK : x ∈ studies.map Prod.fst
            · simp [hxK, List.mem_append]
            · by_cases hxu : x = uid
              · simp [hxu, hxK]
              · simp [hxK, hxu, List.mem_append]

/-- The group keys of `group_by_study` are exactly the distinct present
study UIDs of the input, in order of first appearance. -/
lemma group_by_study_keys (results : List AttrRecord) :
    (group_by_study results).map Prod.fst =
      uniqueInOrder (results.filterMap (fun r => r.lookup "study_uid")) := by
  have h := group_keys_aux results []
  simpa [group_by_study] using h

/-- The record a successful decode produces, spelled out. -/
lemma process_single_image_ok (dcmread : Entry → Except String Dataset)
    (e : Entry) (ds : Dataset) (h : dcmread e = Except.ok ds) :
    process_single_image true dcmread e =
      (true,
       [("filename", e.name),
        ("patient_id", dsGet ds "PatientID" "N/A"),
        ("study_uid", dsGet ds "StudyInstanceUID" "N/A"),
        ("series_number", dsGet ds "SeriesNumber" "N/A"),
        ("instance_number", dsGet ds "InstanceNumber" "N/A"),
        ("modality", dsGet ds "Modality" "N/A"),
        ("study_description", dsGet ds "StudyDescription" "N/A")]) := by
  unfold process_single_image
  rw [h]

/-! ## Claim theorems for the batch runner -/

/-- C1: the batch run produces exactly one outcome per input file, in the
same order (`outcomes = files.map (process_single_image ...)`, so
`outcomes.length = files.length` and `outcomes[i]` is the extraction of
`files[i]`), and the progress events enumerate the files from 1 carrying the
1-based index, the total count and each file's name. -/
theorem c1_batch_one_outcome_per_file :
    ∀ (avail : Bool) (dcmread : Entry → Except String Dataset) (files : List Entry),
      (run_batch avail dcmread files).2.length = files.length ∧
      (run_batch avail dcmread files).2 = files.map (process_single_image avail dcmread) ∧
      (run_batch avail dcmread files).1 =
        (List.enumFrom 1 files).map (fun p => ⟨p.1, files.length, p.2.name⟩) := by
  intro avail dcmread files
  refine ⟨?_, run_batch_outcomes avail dcmread files, run_batch_events avail dcmread files⟩
  rw [run_batch_outcomes]
  exact List.length_map files _

/-- C2: single-file record extraction is a total function (the embedding of
the `try/except` that lets no exception escape): for every decoder and file,
it either succeeds or returns the failure dict carrying the error message
and the file's base name; and in a batch the outcome list splits around any
one file, so one file's failure never changes the outcomes of the files
after it. -/
theorem c2_extraction_total_and_isolated :
    (∀ (dcmread : Entry → Except String Dataset) (e : Entry),
        (process_single_image true dcmread e).1 = true ∨
        ∃ msg, process_single_image true dcmread e =
          (false, [("error", msg), ("filename", e.name)])) ∧
    (∀ (avail : Bool) (dcmread : Entry → Except String Dataset)
        (pre : List Entry) (f : Entry) (post : List Entry),
        (run_batch avail dcmread (pre ++ f :: post)).2 =
          pre.map (process_single_image avail dcmread) ++
            process_single_image avail dcmread f ::
              post.map (process_single_image avail dcmread)) := by
  constructor
  · intro dcmread e
    cases h : dcmread e with
    | ok ds => left; simp [process_single_image, h]
    | error msg => right; exact ⟨msg, by simp [process_single_image, h]⟩
  · intro avail dcmread pre f post
    rw [run_batch_outcomes]
    simp

/-- C9: the rendered error section of the batch summary is bounded: the
detailed part is `errors[:10]` (so never more than 10 entries), the summary
line exists exactly when more than 10 errors occurred and then carries the
count of the remaining ones, and every failure is either detailed or
counted. -/
theorem c9_error_report_bounded :
    ∀ results : List (Bool × AttrRecord),
      (error_report results).1.length ≤ 10 ∧
      (error_report results).1 = (batch_errors results).take 10 ∧
      (error_report results).2 =
        (if 10 < (batch_errors results).length
         then some ((batch_errors results).length - 10) else none) ∧
      (error_report results).1.length + ((error_report results).2).getD 0 =
        (batch_errors results).length := by
  intro results
  refine ⟨?_, rfl, rfl, ?_⟩
  · show (List.take 10 (batch_errors results)).length ≤ 10
    simp only [List.length_take]
    omega
  · show (List.take 10 (batch_errors results)).length +
        (if 10 < (batch_errors results).length
         then some ((batch_errors results).length - 10) else none).getD 0 =
        (batch_errors results).length
    rcases lt_or_ge 10 (batch_errors results).length with hlt | hge
    · rw [if_pos hlt]
      simp only [List.length_take, Option.getD_some]
      omega
    · rw [if_neg (not_lt.mpr hge)]
      simp only [List.length_take, Option.getD_none]
      omega

/-- C10: every success record carries exactly the seven fixed keys in the
fixed order, its `study_uid` value is the decoder's study UID or the
sentinel when the decoder does not expose one, so the aggregator's
key-presence test (`lookup` returning `some`) holds for every success
record. -/
theorem c10_success_record_keys :
    ∀ (dcmread : Entry → Except String Dataset) (e : Entry) (ds : Dataset),
      dcmread e = Except.ok ds →
      (process_single_image true dcmread e).1 = true ∧
      (process_single_image true dcmread e).2.map Prod.fst =
        ["filename", "patient_id", "study_uid", "series_number",
         "instance_number", "modality", "study_description"] ∧
      (process_single_image true dcmread e).2.lookup "study_uid" =
        some (dsGet ds "StudyInstanceUID" "N/A") ∧
      (ds.lookup "StudyInstanceUID" = none →
        (process_single_image true dcmread e).2.lookup "study_uid" = some "N/A") ∧
      ((process_single_image true dcmread e).2.lookup "study_uid").isSome = true := by
  intro dcmread e ds h
  rw [process_single_image_ok dcmread e ds h]
  refine ⟨rfl, rfl, rfl, ?_, rfl⟩
  intro h2
  have hv : dsGet ds "StudyInstanceUID" "N/A" = "N/A" := by
    simp [dsGet, h2]
  rw [hv]
  rfl

/-- Witness for C10 at a concrete decoder that exposes no study UID: the
success record's `study_uid` is present (the sentinel). -/
theorem c10_success_record_keys_witness :
    ((process_single_image true (fun _ => Except.ok [("PatientID", "P7")])
        ⟨["a.dcm"], true⟩).2.lookup "study_uid").isSome = true :=
  (c10_success_record_keys (fun _ => Except.ok [("PatientID", "P7")])
    ⟨["a.dcm"], true⟩ [("PatientID", "P7")] rfl).2.2.2.2

/-- C3 counterexample: a decoder that exposes no study identifier still
yields a success record (its `study_uid` is the sentinel `"N/A"`), and the
aggregator places that record in the group keyed `"N/A"` — it is merged
into a default group, not excluded from grouping. -/
theorem c3_counterexample :
    (process_single_image true (fun _ => Except.ok [("PatientID", "P1")])
        ⟨["img0001"], true⟩).1 = true ∧
    (process_single_image true (fun _ => Except.ok [("PatientID", "P1")])
        ⟨["img0001"], true⟩).2.lookup "study_uid" = some "N/A" ∧
    group_by_study
        [(process_single_image true (fun _ => Except.ok [("PatientID", "P1")])
            ⟨["img0001"], true⟩).2] =
      [("N/A",
        [(process_single_image true (fun _ => Except.ok [("PatientID", "P1")])
            ⟨["img0001"], true⟩).2])] ∧
    (∃ g ∈ group_by_study
        [(process_single_image true (fun _ => Except.ok [("PatientID", "P1")])
            ⟨["img0001"], true⟩).2],
      (process_single_image true (fun _ => Except.ok [("PatientID", "P1")])
          ⟨["img0001"], true⟩).2 ∈ g.2) :=
  ⟨rfl, rfl, rfl,
   ⟨_, List.mem_singleton.mpr rfl, List.mem_singleton.mpr rfl⟩⟩

/-- C3 amended: a record that does not carry the `study_uid` key at all is
excluded from every group (every grouped record carries the key); but a
success record always carries the key, with the sentinel `"N/A"` when the
decoder exposes no study identifier, and such a record is grouped under the
sentinel key. -/
theorem c3_amended_keyless_excluded :
    (∀ (results : List AttrRecord), ∀ g ∈ group_by_study results, ∀ r ∈ g.2,
        (r.lookup "study_uid").isSome = true) ∧
    (∀ (dcmread : Entry → Except String Dataset) (e : Entry) (ds : Dataset),
        dcmread e = Except.ok ds → ds.lookup "StudyInstanceUID" = none →
        (process_single_image true dcmread e).2.lookup "study_uid" = some "N/A" ∧
        group_by_study [(process_single_image true dcmread e).2] =
          [("N/A", [(process_single_image true dcmread e).2])]) := by
  constructor
  · intro results g hg r hr
    rw [group_by_study_sound results g hg r hr]
    rfl
  · intro dcmread e ds h h2
    rw [process_single_image_ok dcmread e ds h]
    have hv : dsGet ds "StudyInstanceUID" "N/A" = "N/A" := by
      simp [dsGet, h2]
    rw [hv]
    exact ⟨rfl, rfl⟩

/-- Witness for C3's amended theorem: a concrete grouped record carries the
key, and a concrete no-study-UID decode is grouped under the sentinel. -/
theorem c3_amended_witness :
    (([("study_uid", "S1")] : AttrRecord).lookup "study_uid").isSome = true ∧
    group_by_study [(process_single_image true (fun _ => Except.ok []) ⟨["x"], true⟩).2] =
      [("N/A", [(process_single_image true (fun _ => Except.ok []) ⟨["x"], true⟩).2])] :=
  ⟨c3_amended_keyless_excluded.1 [[("study_uid", "S1")]]
      ("S1", [[("study_uid", "S1")]]) (List.mem_singleton.mpr rfl)
      [("study_uid", "S1")] (List.mem_singleton.mpr rfl),
   (c3_amended_keyless_excluded.2 (fun _ => Except.ok []) ⟨["x"], true⟩ [] rfl rfl).2⟩

/-- C8 counterexample: a decoder may expose an empty-string study UID; the
resulting success record forms a group keyed `""`, so the number of groups
(1) differs from the number of distinct non-empty study identifiers (0). -/
theorem c8_counterexample :
    (group_by_study
        [(process_single_image true (fun _ => Except.ok [("StudyInstanceUID", "")])
            ⟨["img0002"], true⟩).2]).length = 1 ∧
    distinctNonEmptyStudyIds
        [(process_single_image true (fun _ => Except.ok [("StudyInstanceUID", "")])
            ⟨["img0002"], true⟩).2] = 0 ∧
    (process_single_image true (fun _ => Except.ok [("StudyInstanceUID", "")])
        ⟨["img0002"], true⟩).1 = true :=
  ⟨rfl, rfl, rfl⟩

/-- C8 amended: every record placed in a study group has a study identifier
equal to that group's key; the group keys are exactly the distinct
`study_uid` values present among the input records (the sentinel and the
empty string included), in order of first appearance; hence the number of
groups is the number of those distinct present values. -/
theorem c8_amended_group_invariants :
    (∀ results : List AttrRecord, ∀ g ∈ group_by_study results, ∀ r ∈ g.2,
        r.lookup "study_uid" = some g.1) ∧
    (∀ results : List AttrRecord,
        (group_by_study results).map Prod.fst =
          uniqueInOrder (results.filterMap (fun r => r.lookup "study_uid"))) ∧
    (∀ results : List AttrRecord,
        (group_by_study results).length =
          (uniqueInOrder (results.filterMap (fun r => r.lookup "study_uid"))).length) := by
  refine ⟨fun results => group_by_study_sound results, group_by_study_keys, ?_⟩
  intro results
  rw [← group_by_study_keys results, List.length_map]

/-- Witness for C8's amended theorem at concrete inputs: a grouped record's
UID equals its group key, and three records with UIDs S1, S2, S1 give the
keys [S1, S2] in first-appearance order. -/
theorem c8_amended_witness :
    ([("study_uid", "S1")] : AttrRecord).lookup "study_uid" = some "S1" ∧
    (group_by_study
        [[("study_uid", "S1")], [("study_uid", "S2")], [("study_uid", "S1")]]).map
        Prod.fst = ["S1", "S2"] :=
  ⟨c8_amended_group_invariants.1 [[("study_uid", "S1")]]
      ("S1", [[("study_uid", "S1")]]) (List.mem_singleton.mpr rfl)
      [("study_uid", "S1")] (List.mem_singleton.mpr rfl),
   by rw [c8_amended_group_invariants.2.1]; rfl⟩

/-- C5 (the code evaluated at the failing input): a directory named with a
recognized extension is returned by file discovery, because the extension
globs do not test `is_file()` — so the discovery output can contain a
directory, although its docstring promises DICOM files. -/
theorem c5_directory_in_output :
    find_dicom_files [⟨["scans.dcm"], false⟩] = [⟨["scans.dcm"], false⟩] ∧
    (⟨["scans.dcm"], false⟩ : Entry).isFile = false :=
  ⟨rfl, rfl⟩

/-! ## Helper lemmas about percentiles and interpolation -/

/-- Evaluate `interp` when the floor index has a successor in range. -/
lemma interp_eval (s : List ℚ) (pos : ℚ) (i : ℕ) (hi : Int.floor pos = (i : ℤ))
    (h : i + 1 < s.length) :
    interp s pos = s.getD i 0 + (pos - (i : ℚ)) * (s.getD (i + 1) 0 - s.getD i 0) := by
  unfold interp
  rw [hi]
  simp [h]

/-- Evaluate `interp` when the floor index is the last index. -/
lemma interp_eval_last (s : List ℚ) (pos : ℚ) (i : ℕ) (hi : Int.floor pos = (i : ℤ))
    (h : ¬ (i + 1 < s.length)) :
    interp s pos = s.getD (s.length - 1) 0 := by
  unfold interp
  rw [hi]
  simp [h]

/-- Sorting the concrete array [0, 50, 100] is the identity. -/
lemma sortAsc_0_50_100 : sortAsc [0, 50, 100] = [0, 50, 100] := by
  apply List.Sorted.insertionSort_eq
  norm_num [List.sorted_cons]

/-- Sorting the concrete constant array [5, 5, 5, 5] is the identity. -/
lemma sortAsc_5555 : sortAsc [5, 5, 5, 5] = [5, 5, 5, 5] := by
  apply List.Sorted.insertionSort_eq
  norm_num [List.sorted_cons]

/-- The 2nd percentile of the constant array [5,5,5,5]. -/
lemma percentile_5555_2 : percentile [5, 5, 5, 5] 2 = 5 := by
  unfold percentile
  rw [sortAsc_5555]
  rw [interp_eval _ _ 0 (by norm_num [Int.floor_eq_iff]) (by norm_num)]
  norm_num

/-- The 98th percentile of the constant array [5,5,5,5]. -/
lemma percentile_5555_98 : percentile [5, 5, 5, 5] 98 = 5 := by
  unfold percentile
  rw [sortAsc_5555]
  rw [interp_eval _ _ 2 (by norm_num [Int.floor_eq_iff]) (by norm_num)]
  norm_num

/-- The 0th percentile of [0, 50, 100] is its minimum. -/
lemma percentile_0_50_100_0 : percentile [0, 50, 100] 0 = 0 := by
  unfold percentile
  rw [sortAsc_0_50_100]
  rw [interp_eval _ _ 0 (by norm_num [Int.floor_eq_iff]) (by norm_num)]
  norm_num

/-- The 100th percentile of [0, 50, 100] is its maximum. -/
lemma percentile_0_50_100_100 : percentile [0, 50, 100] 100 = 100 := by
  unfold percentile
  rw [sortAsc_0_50_100]
  rw [interp_eval_last _ _ 2 (by norm_num [Int.floor_eq_iff]) (by norm_num)]
  norm_num

/-- The 2nd percentile of [0, 50, 100]. -/
lemma percentile_0_50_100_2 : percentile [0, 50, 100] 2 = 2 := by
  unfold percentile
  rw [sortAsc_0_50_100]
  rw [interp_eval _ _ 0 (by norm_num [Int.floor_eq_iff]) (by norm_num)]
  norm_num

/-- The 98th percentile of [0, 50, 100]. -/
lemma percentile_0_50_100_98 : percentile [0, 50, 100] 98 = 98 := by
  unfold percentile
  rw [sortAsc_0_50_100]
  rw [interp_eval _ _ 1 (by norm_num [Int.floor_eq_iff]) (by norm_num)]
  norm_num

/-- An in-range `getD` is a member of the list. -/
lemma getD_mem_of_lt : ∀ (l : List ℚ) (k : Nat), k < l.length → l.getD k 0 ∈ l
  | [], _, h => absurd h (by simp)
  | a :: t, 0, _ => List.mem_cons_self a t
  | a :: t, k + 1, h => List.mem_cons_of_mem a (getD_mem_of_lt t k (by simpa using h))

/-- `getD` is monotone over a sorted list. -/
lemma sorted_getD_mono :
    ∀ l : List ℚ, l.Sorted (· ≤ ·) →
      ∀ i j : Nat, i ≤ j → j < l.length → l.getD i 0 ≤ l.getD j 0 := by
  intro l
  induction l with
  | nil => intro _ i j _ hj; simp at hj
  | cons a t ih =>
      intro hs i j hij hj
      rcases List.sorted_cons.mp hs with ⟨ha, ht⟩
      cases i with
      | zero =>
          cases j with
          | zero => exact le_refl _
          | succ j2 =>
              show a ≤ t.getD j2 0
              exact ha _ (getD_mem_of_lt t j2 (by simpa using hj))
      | succ i2 =>
          cases j with
          | zero => omega
          | succ j2 => exact ih ht i2 j2 (by omega) (by simpa using hj)

/-- Folding `min` never exceeds the start value. -/
lemma foldl_min_le_init (t : List ℚ) : ∀ a : ℚ, t.foldl min a ≤ a := by
  induction t with
  | nil => intro a; exact le_refl a
  | cons b t ih =>
      intro a
      calc (b :: t).foldl min a = t.foldl min (min a b) := rfl
        _ ≤ min a b := ih _
        _ ≤ a := min_le_left _ _

/-- Folding `min` never exceeds a member. -/
lemma foldl_min_le_mem (t : List ℚ) : ∀ a y : ℚ, y ∈ t → t.foldl min a ≤ y := by
  induction t with
  | nil => intro a y hy; simp at hy
  | cons b t ih =>
      intro a y hy
      rcases List.mem_cons.mp hy with h | h
      · calc (b :: t).foldl min a = t.foldl min (min a b) := rfl
          _ ≤ min a b := foldl_min_le_init t _
          _ ≤ b := min_le_right _ _
          _ = y := h.symm
      · exact ih _ y h

/-- `np.min` is a lower bound of the array. -/
lemma listMin_le (xs : List ℚ) (y : ℚ) (hy : y ∈ xs) : listMin xs ≤ y := by
  cases xs with
  | nil => simp at hy
  | cons x t =>
      rcases List.mem_cons.mp hy with h | h
      · rw [h]; exact foldl_min_le_init t x
      · exact foldl_min_le_mem t x y h

/-- Folding `max` dominates the start value. -/
lemma le_foldl_max_init (t : List ℚ) : ∀ a : ℚ, a ≤ t.foldl max a := by
  induction t with
  | nil => intro a; exact le_refl a
  | cons b t ih =>
      intro a
      calc a ≤ max a b := le_max_left _ _
        _ ≤ t.foldl max (max a b) := ih _
        _ = (b :: t).foldl max a := rfl

/-- Folding `max` dominates every member. -/
lemma mem_le_foldl_max (t : List ℚ) : ∀ a y : ℚ, y ∈ t → y ≤ t.foldl max a := by
  induction t with
  | nil => intro a y hy; simp at hy
  | cons b t ih =>
      intro a y hy
      rcases List.mem_cons.mp hy with h | h
      · calc y = b := h
          _ ≤ max a b := le_max_right _ _
          _ ≤ t.foldl max (max a b) := le_foldl_max_init t _
          _ = (b :: t).foldl max a := rfl
      · exact ih _ y h

/-- `np.max` is an upper bound of the array. -/
lemma le_listMax (xs : List ℚ) (y : ℚ) (hy : y ∈ xs) : y ≤ listMax xs := by
  cases xs with
  | nil => simp at hy
  | cons x t =>
      rcases List.mem_cons.mp hy with h | h
      · rw [h]; exact le_foldl_max_init t x
      · exact mem_le_foldl_max t x y h

/-- `getD` through `map` at an in-range index. -/
lemma getD_map_lt (f : ℚ → ℚ) :
    ∀ (l : List ℚ) (i : Nat), i < l.length → (l.map f).getD i 0 = f (l.getD i 0)
  | [], _, h => absurd h (by simp)
  | a :: t, 0, _ => rfl
  | a :: t, i + 1, h => getD_map_lt f t i (by simpa using h)

end PyRunner

namespace PyRunner

/-! ## Interpolation bounds and monotonicity -/

/-- An interpolated value over a sorted nonempty list lies between two of
its members. -/
lemma interp_bounds (s : List ℚ) (hs : s.Sorted (· ≤ ·)) (hne : s ≠ [])
    (pos : ℚ) (h0 : 0 ≤ pos) (hle : pos ≤ (s.length : ℚ) - 1) :
    (∃ a ∈ s, a ≤ interp s pos) ∧ (∃ b ∈ s, interp s pos ≤ b) := by
  have hn : 1 ≤ s.length := List.length_pos.mpr hne
  have hfl0 : (0 : ℤ) ≤ Int.floor pos := Int.floor_nonneg.mpr h0
  set i : ℕ := (Int.floor pos).toNat with hidef
  have hiq : ((i : ℤ) : ℚ) = ((Int.floor pos : ℤ) : ℚ) := by
    rw [hidef, Int.toNat_of_nonneg hfl0]
  have hi_le_pos : (i : ℚ) ≤ pos := by
    push_cast at hiq
    rw [hiq]
    exact_mod_cast Int.floor_le pos
  have hpos_lt : pos < (i : ℚ) + 1 := by
    push_cast at hiq
    rw [hiq]
    exact_mod_cast Int.lt_floor_add_one pos
  have hi_lt : i < s.length := by
    have h1 : (i : ℚ) ≤ (s.length : ℚ) - 1 := le_trans hi_le_pos hle
    have h2 : ((i : ℚ)) + 1 ≤ (s.length : ℚ) := by linarith
    have h3 : ((i + 1 : ℕ) : ℚ) ≤ ((s.length : ℕ) : ℚ) := by push_cast; linarith
    have h4 : i + 1 ≤ s.length := by exact_mod_cast h3
    omega
  by_cases hbr : i + 1 < s.length
  · rw [interp_eval s pos i (by rw [hidef, Int.toNat_of_nonneg hfl0]) hbr]
    have hmono : s.getD i 0 ≤ s.getD (i + 1) 0 :=
      sorted_getD_mono s hs i (i + 1) (by omega) hbr
    constructor
    · refine ⟨s.getD i 0, getD_mem_of_lt s i hi_lt, ?_⟩
      have : 0 ≤ (pos - (i : ℚ)) * (s.getD (i + 1) 0 - s.getD i 0) := by
        apply mul_nonneg <;> linarith
      linarith
    · refine ⟨s.getD (i + 1) 0, getD_mem_of_lt s (i + 1) hbr, ?_⟩
      nlinarith [hmono, hi_le_pos, hpos_lt]
  · rw [interp_eval_last s pos i (by rw [hidef, Int.toNat_of_nonneg hfl0]) hbr]
    have hl : s.length - 1 < s.length := by omega
    exact ⟨⟨s.getD (s.length - 1) 0, getD_mem_of_lt s _ hl, le_refl _⟩,
           ⟨s.getD (s.length - 1) 0, getD_mem_of_lt s _ hl, le_refl _⟩⟩

/-- Interpolation into a sorted list is monotone in the position. -/
lemma interp_mono (s : List ℚ) (hs : s.Sorted (· ≤ ·))
    (pos1 pos2 : ℚ) (h0 : 0 ≤ pos1) (h12 : pos1 ≤ pos2)
    (hle : pos2 ≤ (s.length : ℚ) - 1) :
    interp s pos1 ≤ interp s pos2 := by
  have h02 : 0 ≤ pos2 := le_trans h0 h12
  have hfl1 : (0 : ℤ) ≤ Int.floor pos1 := Int.floor_nonneg.mpr h0
  have hfl2 : (0 : ℤ) ≤ Int.floor pos2 := Int.floor_nonneg.mpr h02
  set i1 : ℕ := (Int.floor pos1).toNat with hi1def
  set i2 : ℕ := (Int.floor pos2).toNat with hi2def
  have hieq1 : Int.floor pos1 = (i1 : ℤ) := (Int.toNat_of_nonneg hfl1).symm
  have hieq2 : Int.floor pos2 = (i2 : ℤ) := (Int.toNat_of_nonneg hfl2).symm
  have hi1_le_pos : (i1 : ℚ) ≤ pos1 := by
    have := Int.floor_le pos1
    rw [hieq1] at this
    exact_mod_cast this
  have hpos1_lt : pos1 < (i1 : ℚ) + 1 := by
    have := Int.lt_floor_add_one pos1
    rw [hieq1] at this
    exact_mod_cast this
  have hi2_le_pos : (i2 : ℚ) ≤ pos2 := by
    have := Int.floor_le pos2
    rw [hieq2] at this
    exact_mod_cast this
  have hpos2_lt : pos2 < (i2 : ℚ) + 1 := by
    have := Int.lt_floor_add_one pos2
    rw [hieq2] at this
    exact_mod_cast this
  have hi12 : i1 ≤ i2 := by
    have h1 : Int.floor pos1 ≤ Int.floor pos2 := Int.floor_mono h12
    rw [hieq1, hieq2] at h1
    exact_mod_cast h1
  have hn : 1 ≤ s.length := by
    rcases Nat.eq_zero_or_pos s.length with h | h
    · exfalso
      rw [h] at hle
      push_cast at hle
      linarith
    · exact h
  have hi2_le : i2 + 1 ≤ s.length := by
    have h1 : (i2 : ℚ) ≤ (s.length : ℚ) - 1 := le_trans hi2_le_pos hle
    have h3 : ((i2 + 1 : ℕ) : ℚ) ≤ ((s.length : ℕ) : ℚ) := by push_cast; linarith
    exact_mod_cast h3
  rcases Nat.lt_or_ge i1 i2 with hlt | hge
  · -- i1 < i2: chain through s[i1+1] ≤ s[i2]
    have hbr1 : i1 + 1 < s.length := by omega
    have hmono1 : s.getD i1 0 ≤ s.getD (i1 + 1) 0 :=
      sorted_getD_mono s hs i1 (i1 + 1) (by omega) hbr1
    have hv1 : interp s pos1 ≤ s.getD (i1 + 1) 0 := by
      rw [interp_eval s pos1 i1 hieq1 hbr1]
      nlinarith [hmono1, hi1_le_pos, hpos1_lt]
    have hmid : s.getD (i1 + 1) 0 ≤ s.getD i2 0 :=
      sorted_getD_mono s hs (i1 + 1) i2 (by omega) (by omega)
    have hv2 : s.getD i2 0 ≤ interp s pos2 := by
      by_cases hbr2 : i2 + 1 < s.length
      · rw [interp_eval s pos2 i2 hieq2 hbr2]
        have hmono2 : s.getD i2 0 ≤ s.getD (i2 + 1) 0 :=
          sorted_getD_mono s hs i2 (i2 + 1) (by omega) hbr2
        nlinarith [hmono2, hi2_le_pos]
      · rw [interp_eval_last s pos2 i2 hieq2 hbr2]
        have : i2 = s.length - 1 := by omega
        rw [this]
    linarith
  · -- i1 = i2
    have heq : i1 = i2 := by omega
    have hieq1b : Int.floor pos1 = (i2 : ℤ) := by rw [hieq1, heq]
    have hip1 : (i2 : ℚ) ≤ pos1 := by rw [← heq]; exact hi1_le_pos
    by_cases hbr : i2 + 1 < s.length
    · rw [interp_eval s pos1 i2 hieq1b hbr, interp_eval s pos2 i2 hieq2 hbr]
      have hmono1 : s.getD i2 0 ≤ s.getD (i2 + 1) 0 :=
        sorted_getD_mono s hs i2 (i2 + 1) (by omega) hbr
      nlinarith [mul_nonneg (sub_nonneg.mpr h12) (sub_nonneg.mpr hmono1)]
    · rw [interp_eval_last s pos1 i2 hieq1b hbr, interp_eval_last s pos2 i2 hieq2 hbr]

/-! ## Percentile bounds and monotonicity -/

/-- The sorted copy is sorted. -/
lemma sortAsc_sorted (xs : List ℚ) : (sortAsc xs).Sorted (· ≤ ·) :=
  List.sorted_insertionSort _ xs

/-- The sorted copy is a permutation of the input. -/
lemma sortAsc_perm (xs : List ℚ) : (sortAsc xs).Perm xs :=
  List.perm_insertionSort _ xs

/-- Sorting preserves the length. -/
lemma sortAsc_length (xs : List ℚ) : (sortAsc xs).length = xs.length :=
  (sortAsc_perm xs).length_eq

/-- Sorting a nonempty list yields a nonempty list. -/
lemma sortAsc_ne_nil (xs : List ℚ) (h : xs ≠ []) : sortAsc xs ≠ [] := by
  intro hc
  apply h
  have hl := sortAsc_length xs
  rw [hc] at hl
  exact List.length_eq_zero.mp hl.symm

/-- The interpolation position of a percentile in [0, 100] is in range. -/
lemma percentile_pos_bounds (xs : List ℚ) (hne : xs ≠ []) (q : ℚ)
    (h0 : 0 ≤ q) (h100 : q ≤ 100) :
    0 ≤ q * ((xs.length : ℚ) - 1) / 100 ∧
    q * ((xs.length : ℚ) - 1) / 100 ≤ (xs.length : ℚ) - 1 := by
  have hn : 1 ≤ xs.length := List.length_pos.mpr hne
  have hn1 : (0 : ℚ) ≤ (xs.length : ℚ) - 1 := by
    have h1 : (1 : ℚ) ≤ (xs.length : ℚ) := by exact_mod_cast hn
    linarith
  constructor
  · exact div_nonneg (mul_nonneg h0 hn1) (by norm_num)
  · rw [div_le_iff₀ (by norm_num : (0 : ℚ) < 100)]
    nlinarith

/-- A percentile in [0, 100] lies between the array minimum and maximum. -/
lemma percentile_bounds (xs : List ℚ) (hne : xs ≠ []) (q : ℚ)
    (h0 : 0 ≤ q) (h100 : q ≤ 100) :
    listMin xs ≤ percentile xs q ∧ percentile xs q ≤ listMax xs := by
  obtain ⟨hp0, hp1⟩ := percentile_pos_bounds xs hne q h0 h100
  have hb := interp_bounds (sortAsc xs) (sortAsc_sorted xs) (sortAsc_ne_nil xs hne)
    (q * ((xs.length : ℚ) - 1) / 100) hp0 (by rw [sortAsc_length]; exact hp1)
  obtain ⟨⟨a, ha, hav⟩, ⟨b, hbmem, hbv⟩⟩ := hb
  unfold percentile
  constructor
  · exact le_trans (listMin_le xs a ((sortAsc_perm xs).mem_iff.mp ha)) hav
  · exact le_trans hbv (le_listMax xs b ((sortAsc_perm xs).mem_iff.mp hbmem))

/-- Percentiles are monotone in the percentile rank. -/
lemma percentile_mono (xs : List ℚ) (hne : xs ≠ []) (q1 q2 : ℚ)
    (h0 : 0 ≤ q1) (h12 : q1 ≤ q2) (h100 : q2 ≤ 100) :
    percentile xs q1 ≤ percentile xs q2 := by
  have hn : 1 ≤ xs.length := List.length_pos.mpr hne
  have hn1 : (0 : ℚ) ≤ (xs.length : ℚ) - 1 := by
    have h1 : (1 : ℚ) ≤ (xs.length : ℚ) := by exact_mod_cast hn
    linarith
  unfold percentile
  apply interp_mono (sortAsc xs) (sortAsc_sorted xs)
  · exact (percentile_pos_bounds xs hne q1 h0 (le_trans h12 h100)).1
  · have h1 : q1 * ((xs.length : ℚ) - 1) ≤ q2 * ((xs.length : ℚ) - 1) :=
      mul_le_mul_of_nonneg_right h12 hn1
    linarith
  · rw [sortAsc_length]
    exact (percentile_pos_bounds xs hne q2 (le_trans h0 h12) h100).2

/-! ## Claim theorems for the filter pipeline -/

/-- C6: for every choice of filter primitives and parameters, each of the
three filters is applied to the original baseline image itself (never to the
previous filter's output), every comparison is taken against the baseline's
statistics, and the results appear in the specification order. -/
theorem c6_filters_applied_to_baseline :
    ∀ (P : FilterPrims) (img : List ℚ) (gaussian_sigma edge_sigma : ℚ),
      (process_with_filters P img gaussian_sigma edge_sigma true).map
          (fun r => r.name) =
        ["Gaussian Blur", "Edge Detection", "Contrast Enhancement"] ∧
      (process_with_filters P img gaussian_sigma edge_sigma true).map
          (fun r => r.output) =
        [some (apply_gaussian_filter P img gaussian_sigma),
         some (apply_edge_detection P img edge_sigma),
         apply_contrast_enhancement img 2 98] ∧
      (process_with_filters P img gaussian_sigma edge_sigma true).map
          (fun r => r.original_stats) =
        [compute_image_statistics P.sqrt img,
         compute_image_statistics P.sqrt img,
         compute_image_statistics P.sqrt img] ∧
      (process_with_filters P img gaussian_sigma edge_sigma true).map
          (fun r => r.changes) =
        [some (display_filter_comparison (compute_image_statistics P.sqrt img)
            (compute_image_statistics P.sqrt (apply_gaussian_filter P img gaussian_sigma))),
         some (display_filter_comparison (compute_image_statistics P.sqrt img)
            (compute_image_statistics P.sqrt (apply_edge_detection P img edge_sigma))),
         (apply_contrast_enhancement img 2 98).map
            (fun out => display_filter_comparison (compute_image_statistics P.sqrt img)
              (compute_image_statistics P.sqrt out))] := by
  intro P img gs es
  refine ⟨rfl, rfl, rfl, ?_⟩
  simp only [process_with_filters, if_true, List.map_cons, List.map_nil,
    Option.map_map]
  rfl

/-- C4 (the code evaluated at the failing inputs): degenerate statistics are
not guarded.  On a constant image the low and high percentile values
coincide, so the contrast rescale divides by zero and produces a non-finite
array (`none` in the model); a baseline with zero standard deviation makes
the printed std percent change a division by zero, and an all-zero baseline
does the same to the mean percent change. -/
theorem c4_degenerate_unguarded :
    ∀ (P : FilterPrims) (fstats : Stats),
      P.sqrt 0 = 0 →
      apply_contrast_enhancement [5, 5, 5, 5] 2 98 = none ∧
      (display_filter_comparison
          (compute_image_statistics P.sqrt [5, 5, 5, 5]) fstats).2 = none ∧
      (display_filter_comparison
          (compute_image_statistics P.sqrt [0, 0, 0]) fstats).1 = none := by
  intro P fstats hsqrt
  refine ⟨?_, ?_, ?_⟩
  · simp only [apply_contrast_enhancement]
    rw [percentile_5555_2, percentile_5555_98]
    norm_num
  · have hvar : listVariance [5, 5, 5, 5] = 0 := by
      norm_num [listVariance, listMean]
    simp only [display_filter_comparison, compute_image_statistics, hvar, hsqrt]
    simp [fdiv]
  · have hmean : listMean [0, 0, 0] = 0 := by norm_num [listMean]
    simp only [display_filter_comparison, compute_image_statistics, hmean]
    simp [fdiv]

/-- C7: for every finite image whose low and high percentile values are
distinct (with percentile ranks in range and in order), the contrast
enhancement succeeds, every output value lies in [0, 1], and the positions
holding the pre-clip minimum and maximum map to exactly 0 and 1; with
`percentile_low = 0` and `percentile_high = 100` the input [0, 50, 100] maps
to exactly [0, 1/2, 1]. -/
theorem c7_contrast_output_range (img : List ℚ) (ql qh : ℚ)
    (hne : img ≠ []) (h0 : 0 ≤ ql) (hlh : ql ≤ qh) (h100 : qh ≤ 100)
    (hd : percentile img ql ≠ percentile img qh) :
    (∃ out, apply_contrast_enhancement img ql qh = some out ∧
      out.length = img.length ∧
      (∀ y ∈ out, 0 ≤ y ∧ y ≤ 1) ∧
      (∀ i : Nat, i < img.length →
        (img.getD i 0 = listMin img → out.getD i 0 = 0) ∧
        (img.getD i 0 = listMax img → out.getD i 0 = 1))) ∧
    apply_contrast_enhancement [0, 50, 100] 0 100 = some [0, 1/2, 1] := by
  have hple : percentile img ql ≤ percentile img qh :=
    percentile_mono img hne ql qh h0 hlh h100
  have hlt : percentile img ql < percentile img qh := lt_of_le_of_ne hple hd
  have hdp : 0 < percentile img qh - percentile img ql := sub_pos.mpr hlt
  have hmin_le : listMin img ≤ percentile img ql :=
    (percentile_bounds img hne ql h0 (le_trans hlh h100)).1
  have hle_max : percentile img qh ≤ listMax img :=
    (percentile_bounds img hne qh (le_trans h0 hlh) h100).2
  constructor
  · refine ⟨img.map (fun x =>
      (min (max x (percentile img ql)) (percentile img qh) - percentile img ql) /
        (percentile img qh - percentile img ql)), ?_, List.length_map _ _, ?_, ?_⟩
    · simp only [apply_contrast_enhancement]
      rw [if_neg (ne_of_gt hdp)]
    · intro y hy
      obtain ⟨x, hx, rfl⟩ := List.mem_map.mp hy
      have hcl : percentile img ql ≤ min (max x (percentile img ql)) (percentile img qh) :=
        le_min (le_max_right _ _) hple
      have hcu : min (max x (percentile img ql)) (percentile img qh) ≤ percentile img qh :=
        min_le_right _ _
      constructor
      · exact div_nonneg (by linarith) (le_of_lt hdp)
      · rw [div_le_one hdp]
        linarith
    · intro i hi
      constructor
      · intro hmin
        rw [getD_map_lt _ img i hi, hmin]
        have h1 : max (listMin img) (percentile img ql) = percentile img ql :=
          max_eq_right hmin_le
        have h2 : min (percentile img ql) (percentile img qh) = percentile img ql :=
          min_eq_left hple
        rw [h1, h2, sub_self, zero_div]
      · intro hmax
        rw [getD_map_lt _ img i hi, hmax]
        have h1 : max (listMax img) (percentile img ql) = listMax img :=
          max_eq_left (le_trans hple hle_max)
        have h2 : min (listMax img) (percentile img qh) = percentile img qh :=
          min_eq_right hle_max
        rw [h1, h2, div_self (ne_of_gt hdp)]
  · simp only [apply_contrast_enhancement]
    rw [percentile_0_50_100_0, percentile_0_50_100_100]
    norm_num

/-- Witness for C7 at the concrete input of the spec's scenario: the
hypotheses hold for [0, 50, 100] with ranks 2 and 98, and the theorem's
concrete conjunct is extracted. -/
theorem c7_contrast_output_range_witness :
    apply_contrast_enhancement [0, 50, 100] 0 100 = some [0, 1/2, 1] :=
  (c7_contrast_output_range [0, 50, 100] 2 98 (by simp) (by norm_num)
    (by norm_num) (by norm_num)
    (by rw [percentile_0_50_100_2, percentile_0_50_100_98]; norm_num)).2

/-- Witness for C4 with the identity in place of the external square root
(which fixes `sqrt 0 = 0`) and an arbitrary concrete comparison target. -/
theorem c4_degenerate_unguarded_witness :
    (fun q : ℚ => q) 0 = 0 ∧
    (apply_contrast_enhancement [5, 5, 5, 5] 2 98 = none ∧
     (display_filter_comparison
        (compute_image_statistics (fun q : ℚ => q) [5, 5, 5, 5])
        (compute_image_statistics (fun q : ℚ => q) [])).2 = none ∧
     (display_filter_comparison
        (compute_image_statistics (fun q : ℚ => q) [0, 0, 0])
        (compute_image_statistics (fun q : ℚ => q) [])).1 = none) :=
  ⟨rfl,
   c4_degenerate_unguarded ⟨fun l _ => l, fun l _ => l, fun q => q⟩
     (compute_image_statistics (fun q : ℚ => q) []) rfl⟩

end PyRunner
